import Mathlib

/-!
# Verification of the nwpio ingestion/publish pipeline

A shallow embedding of the core logic of the `nwpio` repository
(`src/nwpio/sources.py`, `config.py`, `downloader.py`, `processor.py`,
`cli.py`) together with theorems settling the frozen claims about its
natural-language specification.

The embedding follows the Python source function by function:
* lead-time scheduling and sentinel computation (`sources.py`),
* cycle-request validation (`config.py`) and post-construction
  assignment (`cli.py`),
* the fetch engine's per-file skip/copy logic (`downloader.py`),
* the publish engine's retry loop, batch upload and overwrite
  deletion (`processor.py`).
-/

namespace Nwpio

/-! ## Python `range` -/

/-- Fuel-driven worker for `pyRange`.  Produces
`start, start+step, start+2*step, ...` as long as the value is `< stop`,
exactly like Python's `range(start, stop, step)` for a positive step. -/
def pyRangeAux (step : Nat) : Nat → Nat → Nat → List Nat
  | 0, _, _ => []
  | fuel + 1, start, stop =>
    if start < stop then start :: pyRangeAux step fuel (start + step) stop
    else []

/-- Python's `range(start, stop, step)` for a positive `step`, as a list.
`stop - start` units of fuel suffice because each recursive call advances
`start` by `step ≥ 1`. -/
def pyRange (start stop step : Nat) : List Nat :=
  pyRangeAux step (stop - start) start stop

theorem pyRangeAux_mem_iff (step : Nat) (hstep : 1 ≤ step) :
    ∀ (fuel start stop : Nat), stop - start ≤ fuel →
      ∀ x, x ∈ pyRangeAux step fuel start stop ↔ ∃ i, x = start + i * step ∧ x < stop := by
  intro fuel
  induction fuel with
  | zero =>
    intro start stop hfuel x
    simp only [pyRangeAux, List.not_mem_nil, false_iff]
    rintro ⟨i, rfl, hx⟩
    omega
  | succ n ih =>
    intro start stop hfuel x
    simp only [pyRangeAux]
    by_cases h : start < stop
    · simp only [if_pos h, List.mem_cons]
      rw [ih (start + step) stop (by omega)]
      constructor
      · rintro (rfl | ⟨i, rfl, hi⟩)
        · exact ⟨0, by simp, h⟩
        · exact ⟨i + 1, by ring, hi⟩
      · rintro ⟨i, rfl, hi⟩
        match i with
        | 0 => left; simp
        | j + 1 => right; exact ⟨j, by ring, hi⟩
    · simp only [if_neg h, List.not_mem_nil, false_iff]
      rintro ⟨i, rfl, hx⟩
      omega

theorem pyRange_mem_iff (start stop step : Nat) (hstep : 1 ≤ step) (x : Nat) :
    x ∈ pyRange start stop step ↔ ∃ i, x = start + i * step ∧ x < stop :=
  pyRangeAux_mem_iff step hstep (stop - start) start stop (Nat.le_refl _) x

theorem pyRangeAux_start_le (step : Nat) :
    ∀ (fuel start stop : Nat), ∀ x ∈ pyRangeAux step fuel start stop, start ≤ x := by
  intro fuel
  induction fuel with
  | zero => intro start stop x hx; simp [pyRangeAux] at hx
  | succ n ih =>
    intro start stop x hx
    simp only [pyRangeAux] at hx
    by_cases h : start < stop
    · rw [if_pos h] at hx
      rcases List.mem_cons.1 hx with rfl | hx'
      · exact Nat.le_refl _
      · exact le_trans (by omega) (ih (start + step) stop x hx')
    · rw [if_neg h] at hx
      cases hx

theorem pyRangeAux_sorted (step : Nat) (hstep : 1 ≤ step) :
    ∀ (fuel start stop : Nat), List.Sorted (· < ·) (pyRangeAux step fuel start stop) := by
  intro fuel
  induction fuel with
  | zero => intro start stop; simp [pyRangeAux]
  | succ n ih =>
    intro start stop
    simp only [pyRangeAux]
    by_cases h : start < stop
    · simp only [if_pos h]
      refine List.sorted_cons.2 ⟨?_, ih (start + step) stop⟩
      intro b hb
      have := pyRangeAux_start_le step n (start + step) stop b hb
      omega
    · simp [if_neg h]

theorem pyRange_sorted (start stop step : Nat) (hstep : 1 ≤ step) :
    List.Sorted (· < ·) (pyRange start stop step) :=
  pyRangeAux_sorted step hstep _ start stop

theorem pyRange_lt_stop (start stop step : Nat) (hstep : 1 ≤ step) :
    ∀ x ∈ pyRange start stop step, x < stop := by
  intro x hx
  rcases (pyRange_mem_iff start stop step hstep x).1 hx with ⟨i, rfl, h⟩
  exact h

theorem pyRange_start_le (start stop step : Nat) (hstep : 1 ≤ step) :
    ∀ x ∈ pyRange start stop step, start ≤ x := by
  intro x hx
  rcases (pyRange_mem_iff start stop step hstep x).1 hx with ⟨i, rfl, h⟩
  omega

/-! ## `sorted(set(...))` -/

/-- The largest element of a list of naturals (0 for the empty list). -/
def maxElem (l : List Nat) : Nat := l.foldr max 0

theorem le_maxElem {l : List Nat} {x : Nat} (hx : x ∈ l) : x ≤ maxElem l := by
  induction l with
  | nil => cases hx
  | cons a t ih =>
    rcases List.mem_cons.1 hx with rfl | h
    · exact Nat.le_max_left _ _ |>.trans_eq rfl
    · exact (ih h).trans (Nat.le_max_right _ _)

/-- Python's `sorted(set(l))` for a list of naturals: the strictly
ascending, duplicate-free enumeration of the elements of `l`.  Realised
as a filter of an initial segment of ℕ, which has exactly that value. -/
def sortedDedup (l : List Nat) : List Nat :=
  (List.range (maxElem l + 1)).filter (fun x => decide (x ∈ l))

theorem sortedDedup_mem_iff (l : List Nat) (x : Nat) :
    x ∈ sortedDedup l ↔ x ∈ l := by
  simp only [sortedDedup, List.mem_filter, List.mem_range, decide_eq_true_eq]
  constructor
  · exact fun h => h.2
  · intro h
    exact ⟨Nat.lt_succ_of_le (le_maxElem h), h⟩

theorem sortedDedup_sorted (l : List Nat) :
    List.Sorted (· < ·) (sortedDedup l) :=
  (List.pairwise_lt_range _).sublist (List.filter_sublist _)

/-- Two strictly sorted lists of naturals with the same members are equal. -/
theorem sorted_lt_eq_of_mem_iff :
    ∀ {l₁ l₂ : List Nat}, List.Sorted (· < ·) l₁ → List.Sorted (· < ·) l₂ →
      (∀ x, x ∈ l₁ ↔ x ∈ l₂) → l₁ = l₂ := by
  intro l₁
  induction l₁ with
  | nil =>
    intro l₂ _ _ hmem
    cases l₂ with
    | nil => rfl
    | cons b t => exact absurd ((hmem b).2 (List.mem_cons_self b t)) (by simp)
  | cons a t ih =>
    intro l₂ h₁ h₂ hmem
    cases l₂ with
    | nil => exact absurd ((hmem a).1 (List.mem_cons_self a t)) (by simp)
    | cons b u =>
      have hab : a = b := by
        have ha : a ∈ b :: u := (hmem a).1 (List.mem_cons_self a t)
        have hb : b ∈ a :: t := (hmem b).2 (List.mem_cons_self b u)
        rcases List.mem_cons.1 ha with h | h
        · exact h
        · rcases List.mem_cons.1 hb with h' | h'
          · exact h'.symm
          · have := (List.sorted_cons.1 h₂).1 a h
            have := (List.sorted_cons.1 h₁).1 b h'
            omega
      subst hab
      have ht := (List.sorted_cons.1 h₁).2
      have hu := (List.sorted_cons.1 h₂).2
      have hmem' : ∀ x, x ∈ t ↔ x ∈ u := by
        intro x
        constructor
        · intro hx
          have hxa : a < x := (List.sorted_cons.1 h₁).1 x hx
          rcases List.mem_cons.1 ((hmem x).1 (List.mem_cons_of_mem a hx)) with rfl | h
          · omega
          · exact h
        · intro hx
          have hxa : a < x := (List.sorted_cons.1 h₂).1 x hx
          rcases List.mem_cons.1 ((hmem x).2 (List.mem_cons_of_mem a hx)) with rfl | h
          · omega
          · exact h
      rw [ih ht hu hmem']

theorem sortedDedup_of_sorted {l : List Nat} (h : List.Sorted (· < ·) l) :
    sortedDedup l = l :=
  sorted_lt_eq_of_mem_iff (sortedDedup_sorted l) h (sortedDedup_mem_iff l)

/-! ## Lead-time cadence tables and generation (`sources.py`) -/

/-- One cadence entry `(range_start, range_end, step)`. -/
structure Cadence where
  rangeStart : Nat
  rangeEnd : Nat
  step : Nat
deriving DecidableEq, Repr

/-- `GFSSource.LEAD_TIME_INTERVALS`: hourly to 120 h, 3-hourly to 240 h,
12-hourly to 384 h. -/
def gfsIntervals : List Cadence :=
  [⟨0, 120, 1⟩, ⟨120, 240, 3⟩, ⟨240, 384, 12⟩]

/-- The interval-collection loop of `GFSSource._generate_lead_times`:
iterate the table in order, `break` at the first entry whose start is
`≥ max_lead_time`, otherwise extend with
`range(start, min(end, max_lead_time) + 1, interval)`. -/
def collectIntervals : List Cadence → Nat → List Nat
  | [], _ => []
  | c :: rest, maxLT =>
    if c.rangeStart ≥ maxLT then []
    else pyRange c.rangeStart (min c.rangeEnd maxLT + 1) c.step ++ collectIntervals rest maxLT

/-- `GFSSource._generate_lead_times`: collect per-interval ranges then
`sorted(set(...))`. -/
def gfsGenerateLeadTimes (maxLT : Nat) : List Nat :=
  sortedDedup (collectIntervals gfsIntervals maxLT)

/-- `ECMWFSource._generate_lead_times` (driven by `is_ensemble`):
* ENS: 3-hourly to 144 h, then 6-hourly from 150 h capped at 360 h;
* HRES: hourly to 90 h, then 3-hourly from 93 h capped at 240 h. -/
def ecmwfGenerateLeadTimes (isEnsemble : Bool) (maxLT : Nat) : List Nat :=
  if isEnsemble then
    if maxLT ≤ 144 then pyRange 0 (maxLT + 1) 3
    else pyRange 0 145 3 ++ pyRange 150 (min (maxLT + 1) 361) 6
  else
    if maxLT ≤ 90 then pyRange 0 (maxLT + 1) 1
    else pyRange 0 91 1 ++ pyRange 93 (min (maxLT + 1) 241) 3

/-- The closed product enumeration of `config.py` / `sources.py`. -/
inductive Product
  | gfs
  | ecmwfHres
  | ecmwfEns
deriving DecidableEq, Repr

/-- The cadence table each product publishes under (spec §4.1; the GFS
table is literal in the source, the ECMWF tables restate the breakpoints
hard-coded in `ECMWFSource._generate_lead_times`). -/
def cadenceTable : Product → List Cadence
  | .gfs => gfsIntervals
  | .ecmwfHres => [⟨0, 90, 1⟩, ⟨90, 240, 3⟩]
  | .ecmwfEns => [⟨0, 144, 3⟩, ⟨144, 360, 6⟩]

/-- The scheduled lead-time sequence of each product, as computed by the
source (`GFSSource._generate_lead_times` /
`ECMWFSource._generate_lead_times`). -/
def generateLeadTimes : Product → Nat → List Nat
  | .gfs, maxLT => gfsGenerateLeadTimes maxLT
  | .ecmwfHres, maxLT => ecmwfGenerateLeadTimes false maxLT
  | .ecmwfEns, maxLT => ecmwfGenerateLeadTimes true maxLT

/-- Modelled from the spec (claim C3's formula, exclusive upper bound):
the union over every cadence triple with `range_start < max_lead_time` of
`range(range_start, min(range_end, max_lead_time), step)`, deduplicated
and sorted ascending. -/
def specLeadTimesExclusive (table : List Cadence) (maxLT : Nat) : List Nat :=
  sortedDedup ((table.filter (fun c => decide (c.rangeStart < maxLT))).flatMap
    (fun c => pyRange c.rangeStart (min c.rangeEnd maxLT) c.step))

/-- The amended formula: same union but with an inclusive upper bound,
`range(range_start, min(range_end, max_lead_time) + 1, step)`. -/
def specLeadTimesInclusive (table : List Cadence) (maxLT : Nat) : List Nat :=
  sortedDedup ((table.filter (fun c => decide (c.rangeStart < maxLT))).flatMap
    (fun c => pyRange c.rangeStart (min c.rangeEnd maxLT + 1) c.step))

/-! ## Sentinel (next lead time) computation (`sources.py`) -/

/-- The loop body of `GFSSource.get_next_lead_time`.  `table` is the full
interval table (consulted again for the `max_lead_time == end` boundary
branch), the second argument is the remaining part being iterated. -/
def gfsNextAux (table : List Cadence) : List Cadence → Nat → Option Nat
  | [], _ => none
  | c :: rest, m =>
    if c.rangeStart ≤ m ∧ m < c.rangeEnd then
      let offset := (m - c.rangeStart) % c.step
      let next := if offset ≠ 0 then m + (c.step - offset) else m + c.step
      some (min next c.rangeEnd)
    else if m = c.rangeEnd then
      match table.find? (fun t => t.rangeStart == c.rangeEnd) with
      | some t => some t.rangeStart
      | none => none
    else gfsNextAux table rest m

/-- `GFSSource.get_next_lead_time`. -/
def gfsGetNextLeadTime (m : Nat) : Option Nat :=
  gfsNextAux gfsIntervals gfsIntervals m

/-- Bucket-name fallback of `ECMWFSource.__init__`: `ecmwf-forecasts`
means AWS, `ecmwf-open-data` means GCS, anything else defaults to GCS. -/
def inferSourceTypeFromBucket (bucket : String) : String :=
  if bucket = "ecmwf-forecasts" then "aws"
  else if bucket = "ecmwf-open-data" then "gcs"
  else "gcs"

/-- The `source_type` resolution of `ECMWFSource.__init__`: a truthy
explicit parameter is taken verbatim (Python's `if source_type:`, so the
empty string counts as absent), otherwise the bucket name is consulted. -/
def ecmwfSourceTypeInit (param : Option String) (bucket : String) : String :=
  match param with
  | some s => if s = "" then inferSourceTypeFromBucket bucket else s
  | none => inferSourceTypeFromBucket bucket

/-- `ECMWFSource.get_next_lead_time`: discovery-based source types
(`aws`, `gcs`) yield no sentinel; any other source type falls through to
the cadence-based "GCS mirror" logic. -/
def ecmwfGetNextLeadTime (sourceType : String) (isEnsemble : Bool) (m : Nat) : Option Nat :=
  if sourceType = "aws" then none
  else if sourceType = "gcs" then none
  else if isEnsemble then
    if m < 144 then some (min (m + 3) 144)
    else if m = 144 then some 150
    else if m < 360 then some (min (m + 6) 360)
    else none
  else
    if m < 90 then some (min (m + 1) 90)
    else if m = 90 then some 93
    else if m < 240 then some (min (m + 3) 240)
    else none

/-- `GribDownloader.validate_availability` probes the manifest's lead
times plus, when `get_next_lead_time` yields one, the sentinel lead time
(`validation_specs = list(file_specs)` optionally extended with
`next_spec`). -/
def validationLeadTimes (manifest : List Nat) (next : Option Nat) : List Nat :=
  match next with
  | some t => manifest ++ [t]
  | none => manifest

/-! ## Scheduling lemmas -/

/-- Splitting off the first element of a Python range. -/
theorem pyRange_eq_cons (s M k : Nat) (hk : 1 ≤ k) (h : s < M) (x : Nat) :
    x ∈ pyRange s M k ↔ x = s ∨ x ∈ pyRange (s + k) M k := by
  rw [pyRange_mem_iff s M k hk, pyRange_mem_iff (s + k) M k hk]
  constructor
  · rintro ⟨i, rfl, hi⟩
    match i with
    | 0 => left; simp
    | j + 1 => right; exact ⟨j, by ring, hi⟩
  · rintro (rfl | ⟨i, rfl, hi⟩)
    · exact ⟨0, by simp, h⟩
    · exact ⟨i + 1, by ring, hi⟩

/-- Sortedness of the two-range concatenations produced by
`ECMWFSource._generate_lead_times`. -/
theorem append_ranges_sorted (s₁ M₁ k₁ s₂ M₂ k₂ : Nat) (hk₁ : 1 ≤ k₁) (hk₂ : 1 ≤ k₂)
    (h : M₁ ≤ s₂) :
    List.Sorted (· < ·) (pyRange s₁ M₁ k₁ ++ pyRange s₂ M₂ k₂) := by
  rw [List.Sorted, List.pairwise_append]
  refine ⟨pyRange_sorted s₁ M₁ k₁ hk₁, pyRange_sorted s₂ M₂ k₂ hk₂, ?_⟩
  intro a ha b hb
  have h₁ := pyRange_lt_stop s₁ M₁ k₁ hk₁ a ha
  have h₂ := pyRange_start_le s₂ M₂ k₂ hk₂ b hb
  omega

/-- The `break`-driven collection loop of `GFSSource._generate_lead_times`
agrees with the filter-based union of the spec formula on the GFS table. -/
theorem gfs_collect_eq_union (m : Nat) :
    collectIntervals gfsIntervals m
      = (gfsIntervals.filter (fun c => decide (c.rangeStart < m))).flatMap
          (fun c => pyRange c.rangeStart (min c.rangeEnd m + 1) c.step) := by
  by_cases h0 : 0 < m
  · by_cases h1 : 120 < m
    · by_cases h2 : 240 < m
      · simp [collectIntervals, gfsIntervals, h0, h1, h2, Nat.not_le.2 h0,
          Nat.not_le.2 h1, Nat.not_le.2 h2]
      · simp [collectIntervals, gfsIntervals, h0, h1, h2, Nat.not_le.2 h0,
          Nat.not_le.2 h1, Nat.le_of_not_lt h2]
    · have h2 : ¬ 240 < m := by omega
      simp [collectIntervals, gfsIntervals, h0, h1, h2, Nat.not_le.2 h0,
        Nat.le_of_not_lt h1]
  · have h1 : ¬ 120 < m := by omega
    have h2 : ¬ 240 < m := by omega
    simp [collectIntervals, gfsIntervals, h0, h1, h2, Nat.le_of_not_lt h0]

/-- GFS lead-time generation matches the inclusive union formula. -/
theorem gfs_generate_eq_inclusive (m : Nat) :
    gfsGenerateLeadTimes m = specLeadTimesInclusive gfsIntervals m := by
  rw [gfsGenerateLeadTimes, specLeadTimesInclusive, gfs_collect_eq_union]

/-- ECMWF ENS lead-time generation matches the inclusive union formula
for any positive `max_lead_time`. -/
theorem ecmwf_ens_generate_eq_inclusive (m : Nat) (hm : 1 ≤ m) :
    ecmwfGenerateLeadTimes true m = specLeadTimesInclusive (cadenceTable .ecmwfEns) m := by
  by_cases h : m ≤ 144
  · have hfil : (cadenceTable Product.ecmwfEns).filter
        (fun c => decide (c.rangeStart < m)) = [⟨0, 144, 3⟩] := by
      simp [cadenceTable, List.filter_cons, show (0 : Nat) < m by omega,
        show ¬ (144 : Nat) < m by omega]
    rw [ecmwfGenerateLeadTimes, if_pos rfl, if_pos h, specLeadTimesInclusive, hfil]
    simp only [List.flatMap_cons, List.flatMap_nil, List.append_nil]
    rw [show min (Cadence.mk 0 144 3).rangeEnd m = m from Nat.min_eq_right h]
    exact (sortedDedup_of_sorted (pyRange_sorted 0 (m + 1) 3 (by omega))).symm
  · have h144 : 144 < m := by omega
    have hfil : (cadenceTable Product.ecmwfEns).filter
        (fun c => decide (c.rangeStart < m)) = [⟨0, 144, 3⟩, ⟨144, 360, 6⟩] := by
      simp [cadenceTable, List.filter_cons, show (0 : Nat) < m by omega, h144]
    rw [ecmwfGenerateLeadTimes, if_pos rfl, if_neg h, specLeadTimesInclusive, hfil]
    simp only [List.flatMap_cons, List.flatMap_nil, List.append_nil]
    rw [show min (Cadence.mk 0 144 3).rangeEnd m = 144 by
        show min 144 m = 144
        omega,
      show min (Cadence.mk 144 360 6).rangeEnd m + 1 = min (m + 1) 361 by
        show min 360 m + 1 = min (m + 1) 361
        omega]
    refine (sorted_lt_eq_of_mem_iff (sortedDedup_sorted _)
      (append_ranges_sorted 0 145 3 150 (min (m + 1) 361) 6 (by omega) (by omega) (by omega))
      ?_).symm
    intro x
    rw [sortedDedup_mem_iff]
    simp only [List.mem_append]
    have hsplit := pyRange_eq_cons 144 (min (m + 1) 361) 6 (by omega) (by omega) x
    have h144mem : (144 : Nat) ∈ pyRange 0 145 3 :=
      (pyRange_mem_iff 0 145 3 (by omega) 144).2 ⟨48, by norm_num, by norm_num⟩
    constructor
    · rintro (hx | hx)
      · exact Or.inl hx
      · rcases hsplit.1 hx with rfl | hx'
        · exact Or.inl h144mem
        · exact Or.inr hx'
    · rintro (hx | hx)
      · exact Or.inl hx
      · exact Or.inr (hsplit.2 (Or.inr hx))

/-- ECMWF HRES lead-time generation matches the inclusive union formula
for any positive `max_lead_time`. -/
theorem ecmwf_hres_generate_eq_inclusive (m : Nat) (hm : 1 ≤ m) :
    ecmwfGenerateLeadTimes false m = specLeadTimesInclusive (cadenceTable .ecmwfHres) m := by
  by_cases h : m ≤ 90
  · have hfil : (cadenceTable Product.ecmwfHres).filter
        (fun c => decide (c.rangeStart < m)) = [⟨0, 90, 1⟩] := by
      simp [cadenceTable, List.filter_cons, show (0 : Nat) < m by omega,
        show ¬ (90 : Nat) < m by omega]
    rw [ecmwfGenerateLeadTimes, if_neg (by simp), if_pos h, specLeadTimesInclusive, hfil]
    simp only [List.flatMap_cons, List.flatMap_nil, List.append_nil]
    rw [show min (Cadence.mk 0 90 1).rangeEnd m = m from Nat.min_eq_right h]
    exact (sortedDedup_of_sorted (pyRange_sorted 0 (m + 1) 1 (by omega))).symm
  · have h90 : 90 < m := by omega
    have hfil : (cadenceTable Product.ecmwfHres).filter
        (fun c => decide (c.rangeStart < m)) = [⟨0, 90, 1⟩, ⟨90, 240, 3⟩] := by
      simp [cadenceTable, List.filter_cons, show (0 : Nat) < m by omega, h90]
    rw [ecmwfGenerateLeadTimes, if_neg (by simp), if_neg h, specLeadTimesInclusive, hfil]
    simp only [List.flatMap_cons, List.flatMap_nil, List.append_nil]
    rw [show min (Cadence.mk 0 90 1).rangeEnd m = 90 by
        show min 90 m = 90
        omega,
      show min (Cadence.mk 90 240 3).rangeEnd m + 1 = min (m + 1) 241 by
        show min 240 m + 1 = min (m + 1) 241
        omega]
    refine (sorted_lt_eq_of_mem_iff (sortedDedup_sorted _)
      (append_ranges_sorted 0 91 1 93 (min (m + 1) 241) 3 (by omega) (by omega) (by omega))
      ?_).symm
    intro x
    rw [sortedDedup_mem_iff]
    simp only [List.mem_append]
    have hsplit := pyRange_eq_cons 90 (min (m + 1) 241) 3 (by omega) (by omega) x
    have h90mem : (90 : Nat) ∈ pyRange 0 91 1 :=
      (pyRange_mem_iff 0 91 1 (by omega) 90).2 ⟨90, by norm_num, by norm_num⟩
    constructor
    · rintro (hx | hx)
      · exact Or.inl hx
      · rcases hsplit.1 hx with rfl | hx'
        · exact Or.inl h90mem
        · exact Or.inr hx'
    · rintro (hx | hx)
      · exact Or.inl hx
      · exact Or.inr (hsplit.2 (Or.inr hx))


/-- Product ceilings enforced by `DownloadConfig.validate_lead_time`. -/
def productCeiling : Product → Nat
  | .gfs => 384
  | .ecmwfHres => 240
  | .ecmwfEns => 360

theorem specLeadTimesInclusive_le (table : List Cadence) (m : Nat)
    (hsteps : ∀ c ∈ table, 1 ≤ c.step) :
    ∀ x ∈ specLeadTimesInclusive table m, x ≤ m := by
  intro x hx
  rw [specLeadTimesInclusive, sortedDedup_mem_iff] at hx
  rcases List.mem_flatMap.1 hx with ⟨c, hc, hxc⟩
  have hstep : 1 ≤ c.step := hsteps c (List.mem_of_mem_filter hc)
  have := pyRange_lt_stop c.rangeStart (min c.rangeEnd m + 1) c.step hstep x hxc
  omega

theorem generate_eq_inclusive (p : Product) (m : Nat) (hm : 1 ≤ m) :
    generateLeadTimes p m = specLeadTimesInclusive (cadenceTable p) m := by
  cases p with
  | gfs => exact gfs_generate_eq_inclusive m
  | ecmwfHres => exact ecmwf_hres_generate_eq_inclusive m hm
  | ecmwfEns => exact ecmwf_ens_generate_eq_inclusive m hm

theorem generateLeadTimes_sorted (p : Product) (m : Nat) :
    List.Sorted (· < ·) (generateLeadTimes p m) := by
  by_cases hm : 1 ≤ m
  · rw [generate_eq_inclusive p m hm]
    exact sortedDedup_sorted _
  · have hm0 : m = 0 := by omega
    subst hm0
    cases p <;> decide

theorem generateLeadTimes_le (p : Product) (m : Nat) :
    ∀ x ∈ generateLeadTimes p m, x ≤ m := by
  by_cases hm : 1 ≤ m
  · rw [generate_eq_inclusive p m hm]
    refine specLeadTimesInclusive_le (cadenceTable p) m ?_
    cases p <;> decide
  · have hm0 : m = 0 := by omega
    subst hm0
    cases p <;> decide

/-- C3: the spec's exclusive-upper-bound union formula disagrees with the
code: for GFS with `max_lead_time = 6` the code schedules `[0, …, 6]`
while the formula gives `[0, …, 5]`. -/
theorem c3_exclusive_formula_counterexample :
    generateLeadTimes Product.gfs 6 ≠ specLeadTimesExclusive (cadenceTable Product.gfs) 6 ∧
      generateLeadTimes Product.gfs 6 = [0, 1, 2, 3, 4, 5, 6] ∧
      specLeadTimesExclusive (cadenceTable Product.gfs) 6 = [0, 1, 2, 3, 4, 5] := by
  refine ⟨?_, by decide, by decide⟩
  decide

/-- C3 (amended): for every product and every positive `max_lead_time`,
the scheduled lead-time sequence equals the union over every cadence
triple with `range_start < max_lead_time` of
`range(range_start, min(range_end, max_lead_time) + 1, step)` — an
inclusive upper bound — deduplicated and sorted ascending. -/
theorem c3_lead_times_inclusive_union (p : Product) (m : Nat) (hm : 1 ≤ m) :
    generateLeadTimes p m = specLeadTimesInclusive (cadenceTable p) m :=
  generate_eq_inclusive p m hm

theorem c3_lead_times_inclusive_union_witness :
    1 ≤ 6 ∧ generateLeadTimes Product.gfs 6 = specLeadTimesInclusive (cadenceTable Product.gfs) 6 :=
  ⟨by decide, c3_lead_times_inclusive_union Product.gfs 6 (by decide)⟩

/-- C4: for every product and `max_lead_time` within the product's
ceiling, the scheduled lead-time sequence is strictly ascending, free of
duplicates, and bounded by `max_lead_time`. -/
theorem c4_lead_times_sorted_nodup_bounded (p : Product) (m : Nat)
    (hceil : m ≤ productCeiling p) :
    List.Sorted (· < ·) (generateLeadTimes p m) ∧ (generateLeadTimes p m).Nodup ∧
      ∀ x ∈ generateLeadTimes p m, x ≤ m :=
  ⟨generateLeadTimes_sorted p m, (generateLeadTimes_sorted p m).nodup,
    generateLeadTimes_le p m⟩

theorem c4_lead_times_sorted_nodup_bounded_witness :
    6 ≤ productCeiling Product.gfs ∧
      (List.Sorted (· < ·) (generateLeadTimes Product.gfs 6) ∧
        (generateLeadTimes Product.gfs 6).Nodup ∧
        ∀ x ∈ generateLeadTimes Product.gfs 6, x ≤ 6) :=
  ⟨by decide, c4_lead_times_sorted_nodup_bounded Product.gfs 6 (by decide)⟩

set_option maxRecDepth 8000

/-- C2: `GFSSource.get_next_lead_time` violates the sentinel contract at
the interior cadence boundaries.  At `max_lead_time = 120` it returns
120 and at `max_lead_time = 240` it returns 240 — the boundary itself,
not a lead time strictly greater — although the cadence's next published
lead times are 123 and 252 respectively (shown by `find?` over the full
GFS schedule).  Away from the boundaries the function is correct, e.g.
141 ↦ 144. -/
theorem c2_gfs_sentinel_boundary_bug :
    gfsGetNextLeadTime 120 = some 120 ∧
      gfsGetNextLeadTime 240 = some 240 ∧
      List.find? (fun l => decide (120 < l)) (generateLeadTimes Product.gfs 384) = some 123 ∧
      List.find? (fun l => decide (240 < l)) (generateLeadTimes Product.gfs 384) = some 252 ∧
      gfsGetNextLeadTime 141 = some 144 ∧
      ecmwfGetNextLeadTime "mirror" true 141 = some 144 ∧
      ecmwfGetNextLeadTime "mirror" true 144 = some 150 := by
  refine ⟨by decide, by decide, by decide, by decide, by decide, by decide, by decide⟩


/-! ## Cycle-request validation (`config.py`) and CLI assignment (`cli.py`) -/

/-- `DownloadConfig.validate_cycle`: the cycle hour must be one of
0/6/12/18, and additionally 0/12 for the ECMWF products. -/
def validateCycle (p : Product) (hour : Nat) : Except String Nat :=
  if ¬ (hour = 0 ∨ hour = 6 ∨ hour = 12 ∨ hour = 18) then
    Except.error "Cycle hour must be 0, 6, 12, or 18"
  else if (p = Product.ecmwfHres ∨ p = Product.ecmwfEns) ∧ ¬ (hour = 0 ∨ hour = 12) then
    Except.error "ECMWF only supports 00z and 12z cycles"
  else Except.ok hour

/-- `DownloadConfig.validate_lead_time`: product-specific ceilings
(GFS 384 h, ECMWF HRES 240 h, ECMWF ENS 360 h). -/
def validateLeadTime (p : Product) (v : Int) : Except String Int :=
  if p = Product.gfs ∧ v > 384 then Except.error "GFS max lead time is 384 hours"
  else if p = Product.ecmwfHres ∧ v > 240 then Except.error "ECMWF HRES max lead time is 240 hours"
  else if p = Product.ecmwfEns ∧ v > 360 then Except.error "ECMWF ENS max lead time is 360 hours"
  else Except.ok v

/-- The validated fields of a `DownloadConfig`. -/
structure DownloadConfigModel where
  product : Product
  cycleHour : Option Nat
  maxLeadTime : Int
deriving DecidableEq, Repr

/-- Pydantic construction of `DownloadConfig`: the `cycle` field
validator runs only when a cycle value is supplied (the field defaults
to `None`), the `Field(gt=0)` constraint and `validate_lead_time` guard
`max_lead_time`.  Validation is pure — no I/O happens during model
construction. -/
def constructDownloadConfig (p : Product) (cycleHour : Option Nat) (maxLeadTime : Int) :
    Except String DownloadConfigModel :=
  let checkLead : Except String DownloadConfigModel :=
    if maxLeadTime ≤ 0 then Except.error "Input should be greater than 0"
    else
      match validateLeadTime p maxLeadTime with
      | Except.error e => Except.error e
      | Except.ok _ => Except.ok ⟨p, cycleHour, maxLeadTime⟩
  match cycleHour with
  | some h =>
    (match validateCycle p h with
     | Except.error e => Except.error e
     | Except.ok _ => checkLead)
  | none => checkLead

/-- The CLI `run` command's `workflow_config.download.cycle = datetime.fromisoformat(cycle)`:
a plain pydantic attribute assignment.  `DownloadConfig` does not enable
`validate_assignment`, so no validator runs on assignment. -/
def assignCycle (c : DownloadConfigModel) (hour : Nat) : DownloadConfigModel :=
  { c with cycleHour := some hour }

/-- The admissible cycle hours of a product, as checked by
`validate_cycle`. -/
def cycleHourAdmissible (p : Product) (hour : Nat) : Prop :=
  (hour = 0 ∨ hour = 6 ∨ hour = 12 ∨ hour = 18) ∧
    ((p = Product.ecmwfHres ∨ p = Product.ecmwfEns) → (hour = 0 ∨ hour = 12))

instance (p : Product) (hour : Nat) : Decidable (cycleHourAdmissible p hour) := by
  unfold cycleHourAdmissible
  infer_instance

/-- Whether a pydantic validation step succeeded. -/
def exceptOk {ε α : Type} : Except ε α → Bool
  | Except.ok _ => true
  | Except.error _ => false

theorem validateCycle_ok_iff (p : Product) (h : Nat) :
    exceptOk (validateCycle p h) = true ↔ cycleHourAdmissible p h := by
  unfold validateCycle cycleHourAdmissible
  cases p <;> split <;> (try split) <;> simp_all [exceptOk] <;> tauto

theorem validateLeadTime_ok_iff (p : Product) (v : Int) :
    exceptOk (validateLeadTime p v) = true ↔ v ≤ (productCeiling p : Int) := by
  unfold validateLeadTime productCeiling
  cases p <;> split <;> (try split) <;> (try split) <;> simp_all [exceptOk] <;> omega

theorem constructDownloadConfig_ok_iff (p : Product) (h : Nat) (mlt : Int) :
    exceptOk (constructDownloadConfig p (some h) mlt) = true ↔
      (exceptOk (validateCycle p h) = true ∧ 0 < mlt ∧
        exceptOk (validateLeadTime p mlt) = true) := by
  cases hcv : validateCycle p h with
  | error e => simp [constructDownloadConfig, hcv, exceptOk]
  | ok x =>
    by_cases hm : mlt ≤ 0
    · simp [constructDownloadConfig, hcv, hm, exceptOk]
      try omega
    · cases hlv : validateLeadTime p mlt with
      | error e => simp [constructDownloadConfig, hcv, hm, hlv, exceptOk]
      | ok y =>
        simp [constructDownloadConfig, hcv, hm, hlv, exceptOk]
        try omega

/-- C7 counterexample: a request with an admissible cycle hour and a
`max_lead_time` that does not exceed the GFS ceiling is nevertheless
rejected when `max_lead_time = 0`, because of the `Field(gt=0)`
constraint the claim does not mention. -/
theorem c7_zero_lead_time_counterexample :
    exceptOk (constructDownloadConfig Product.gfs (some 0) 0) = false ∧
      cycleHourAdmissible Product.gfs 0 ∧ ¬ ((0 : Int) > 384) := by
  refine ⟨by decide, by decide, by decide⟩

/-- C7 (amended): constructing a cycle request with a cycle value fails
exactly when the cycle hour is outside the product's admissible set,
or `max_lead_time` is not positive, or `max_lead_time` exceeds the
product's ceiling; a request passing these checks is accepted.
Validation is pure, so no I/O precedes the failure. -/
theorem c7_construction_accepts_iff (p : Product) (h : Nat) (mlt : Int) :
    exceptOk (constructDownloadConfig p (some h) mlt) = true ↔
      (cycleHourAdmissible p h ∧ 0 < mlt ∧ mlt ≤ (productCeiling p : Int)) := by
  rw [constructDownloadConfig_ok_iff, validateCycle_ok_iff, validateLeadTime_ok_iff]

/-- C10: the cycle-hour constraint is only enforced by construction.  A
config built without a cycle is accepted; assigning a disallowed hour
afterwards (hour 3 for GFS, hour 6 for ECMWF HRES — both rejected by
`validate_cycle`) silently succeeds and the hour flows on unchanged. -/
theorem c10_assignment_bypasses_cycle_validation :
    constructDownloadConfig Product.gfs none 120
        = Except.ok ⟨Product.gfs, none, 120⟩ ∧
      assignCycle ⟨Product.gfs, none, 120⟩ 3 = ⟨Product.gfs, some 3, 120⟩ ∧
      exceptOk (validateCycle Product.gfs 3) = false ∧
      constructDownloadConfig Product.ecmwfHres none 120
        = Except.ok ⟨Product.ecmwfHres, none, 120⟩ ∧
      assignCycle ⟨Product.ecmwfHres, none, 120⟩ 6 = ⟨Product.ecmwfHres, some 6, 120⟩ ∧
      exceptOk (validateCycle Product.ecmwfHres 6) = false := by
  refine ⟨by rfl, by rfl, by decide, by rfl, by rfl, by decide⟩

/-- C9 counterexample: `ECMWFSource.__init__` takes any truthy explicit
`source_type` parameter verbatim, so the field is not normalized to
`aws`/`gcs`: with parameter `"mirror"` the field is `"mirror"`, and
`get_next_lead_time` then falls through to the cadence logic and
produces a sentinel, which `validate_availability` would probe. -/
theorem c9_source_type_not_normalized_counterexample :
    ecmwfSourceTypeInit (some "mirror") "ecmwf-open-data" = "mirror" ∧
      ("mirror" ≠ "aws" ∧ "mirror" ≠ "gcs") ∧
      ecmwfGetNextLeadTime "mirror" true 141 = some 144 ∧
      validationLeadTimes [0, 3] (ecmwfGetNextLeadTime "mirror" true 141) ≠ [0, 3] := by
  refine ⟨by decide, ⟨by decide, by decide⟩, by decide, by decide⟩

/-- C9 (amended): whenever the explicit `source_type` parameter is
absent or one of `"aws"`/`"gcs"` — the only values the
`DownloadConfig.source_type` literal type admits — the constructed
field is `"aws"` or `"gcs"`, `get_next_lead_time` returns `None` for
it, and `validate_availability` therefore probes only the manifest
itself (no sentinel file is appended). -/
theorem c9_ecmwf_no_sentinel_for_config_source_types
    (param : Option String) (bucket : String) (isEns : Bool) (m : Nat)
    (manifest : List Nat)
    (hparam : param = none ∨ param = some "aws" ∨ param = some "gcs") :
    (ecmwfSourceTypeInit param bucket = "aws" ∨ ecmwfSourceTypeInit param bucket = "gcs") ∧
      ecmwfGetNextLeadTime (ecmwfSourceTypeInit param bucket) isEns m = none ∧
      validationLeadTimes manifest (ecmwfGetNextLeadTime (ecmwfSourceTypeInit param bucket) isEns m)
        = manifest := by
  have hinf : inferSourceTypeFromBucket bucket = "aws" ∨
      inferSourceTypeFromBucket bucket = "gcs" := by
    unfold inferSourceTypeFromBucket
    split
    · left; rfl
    · split
      · right; rfl
      · right; rfl
  have hst : ecmwfSourceTypeInit param bucket = "aws" ∨ ecmwfSourceTypeInit param bucket = "gcs" := by
    rcases hparam with rfl | rfl | rfl
    · simpa [ecmwfSourceTypeInit] using hinf
    · left; simp [ecmwfSourceTypeInit]
    · right; simp [ecmwfSourceTypeInit]
  have hnext : ecmwfGetNextLeadTime (ecmwfSourceTypeInit param bucket) isEns m = none := by
    rcases hst with h | h <;> rw [h] <;> simp [ecmwfGetNextLeadTime]
  exact ⟨hst, hnext, by rw [hnext]; rfl⟩

theorem c9_ecmwf_no_sentinel_witness :
    ((none : Option String) = none ∨ (none : Option String) = some "aws" ∨
        (none : Option String) = some "gcs") ∧
      ((ecmwfSourceTypeInit none "ecmwf-forecasts" = "aws" ∨
          ecmwfSourceTypeInit none "ecmwf-forecasts" = "gcs") ∧
        ecmwfGetNextLeadTime (ecmwfSourceTypeInit none "ecmwf-forecasts") true 141 = none ∧
        validationLeadTimes [0, 3]
            (ecmwfGetNextLeadTime (ecmwfSourceTypeInit none "ecmwf-forecasts") true 141)
          = [0, 3]) :=
  ⟨Or.inl rfl,
    c9_ecmwf_no_sentinel_for_config_source_types none "ecmwf-forecasts" true 141 [0, 3]
      (Or.inl rfl)⟩


/-! ## Fetch engine (`downloader.py`) -/

/-- One manifest entry, reduced to the two paths `_download_file`
consults. -/
structure FileSpec where
  sourcePath : String
  destinationPath : String
deriving DecidableEq, Repr

/-- The object-store state the fetch engine observes: which source
objects and which destination objects exist. -/
structure StoreState where
  sources : List String
  dests : List String
deriving DecidableEq, Repr

/-- Per-file result recorded by `GribDownloader.download`:
whether the file counts as a success and whether bytes were actually
transferred (a skip is a success without a transfer). -/
structure TransferOutcome where
  success : Bool
  transferred : Bool
deriving DecidableEq, Repr

/-- `GribDownloader._download_file`: when `overwrite` is off and the
destination object already exists, return success without transferring;
otherwise a missing source object is a per-file failure, and an
existing one is copied, creating the destination object. -/
def downloadFile (overwrite : Bool) (st : StoreState) (spec : FileSpec) :
    TransferOutcome × StoreState :=
  if overwrite = false ∧ spec.destinationPath ∈ st.dests then (⟨true, false⟩, st)
  else if spec.sourcePath ∈ st.sources then
    (⟨true, true⟩, { st with dests := spec.destinationPath :: st.dests })
  else (⟨false, false⟩, st)

/-- `GribDownloader.download`: process every manifest entry and collect
all outcomes (a failure never prevents the remaining files from being
processed). -/
def fetchRun (overwrite : Bool) : StoreState → List FileSpec → List TransferOutcome × StoreState
  | st, [] => ([], st)
  | st, spec :: rest =>
    let r := downloadFile overwrite st spec
    let rs := fetchRun overwrite r.2 rest
    (r.1 :: rs.1, rs.2)

theorem downloadFile_sources (overwrite : Bool) (st : StoreState) (spec : FileSpec) :
    (downloadFile overwrite st spec).2.sources = st.sources := by
  unfold downloadFile
  split
  · rfl
  · split <;> rfl

theorem fetchRun_sources (overwrite : Bool) :
    ∀ (m : List FileSpec) (st : StoreState), (fetchRun overwrite st m).2.sources = st.sources := by
  intro m
  induction m with
  | nil => intro st; rfl
  | cons spec rest ih =>
    intro st
    show (fetchRun overwrite (downloadFile overwrite st spec).2 rest).2.sources = st.sources
    rw [ih, downloadFile_sources]

theorem downloadFile_dests_mono (overwrite : Bool) (st : StoreState) (spec : FileSpec) :
    ∀ x ∈ st.dests, x ∈ (downloadFile overwrite st spec).2.dests := by
  intro x hx
  unfold downloadFile
  split
  · exact hx
  · split
    · exact List.mem_cons_of_mem _ hx
    · exact hx

theorem fetchRun_dests_mono (overwrite : Bool) :
    ∀ (m : List FileSpec) (st : StoreState) (x : String),
      x ∈ st.dests → x ∈ (fetchRun overwrite st m).2.dests := by
  intro m
  induction m with
  | nil => intro st x hx; exact hx
  | cons spec rest ih =>
    intro st x hx
    exact ih (downloadFile overwrite st spec).2 x (downloadFile_dests_mono overwrite st spec x hx)

theorem downloadFile_dests_subset (overwrite : Bool) (st : StoreState) (spec : FileSpec) :
    ∀ x ∈ (downloadFile overwrite st spec).2.dests,
      x ∈ st.dests ∨ x = spec.destinationPath := by
  intro x hx
  unfold downloadFile at hx
  split at hx
  · exact Or.inl hx
  · split at hx
    · rcases List.mem_cons.1 hx with rfl | hx'
      · exact Or.inr rfl
      · exact Or.inl hx'
    · exact Or.inl hx

theorem fetchRun_dests_subset (overwrite : Bool) :
    ∀ (m : List FileSpec) (st : StoreState) (x : String),
      x ∈ (fetchRun overwrite st m).2.dests →
        x ∈ st.dests ∨ x ∈ m.map FileSpec.destinationPath := by
  intro m
  induction m with
  | nil => intro st x hx; exact Or.inl hx
  | cons spec rest ih =>
    intro st x hx
    rcases ih (downloadFile overwrite st spec).2 x hx with h | h
    · rcases downloadFile_dests_subset overwrite st spec x h with h' | h'
      · exact Or.inl h'
      · exact Or.inr (by simp [h'])
    · exact Or.inr (List.mem_cons_of_mem _ h)

/-- Skipping: with `overwrite=false` and the destination present, the
outcome is a success without a transfer and the store is untouched. -/
theorem downloadFile_skip (st : StoreState) (spec : FileSpec)
    (h : spec.destinationPath ∈ st.dests) :
    downloadFile false st spec = (⟨true, false⟩, st) := by
  unfold downloadFile
  rw [if_pos ⟨rfl, h⟩]

/-- Core induction for C5: rerunning the fetch from the state the first
run produced transfers nothing, reproduces the per-file success flags,
and leaves the store unchanged. -/
theorem fetchRun_idempotent (m : List FileSpec) :
    ∀ st0 : StoreState, (m.map FileSpec.destinationPath).Nodup →
      (∀ o ∈ (fetchRun false (fetchRun false st0 m).2 m).1, o.transferred = false) ∧
        (fetchRun false (fetchRun false st0 m).2 m).1.map TransferOutcome.success
          = (fetchRun false st0 m).1.map TransferOutcome.success ∧
        (fetchRun false (fetchRun false st0 m).2 m).2 = (fetchRun false st0 m).2 := by
  induction m with
  | nil =>
    intro st0 _
    refine ⟨?_, rfl, rfl⟩
    intro o ho
    cases ho
  | cons spec rest ih =>
    intro st0 hnodup
    have hnodup' : (rest.map FileSpec.destinationPath).Nodup :=
      (List.nodup_cons.1 hnodup).2
    have hnotin : spec.destinationPath ∉ rest.map FileSpec.destinationPath :=
      (List.nodup_cons.1 hnodup).1
    -- the three branches of `_download_file` on the first run
    by_cases hskip : spec.destinationPath ∈ st0.dests
    · have h1 : downloadFile false st0 spec = (⟨true, false⟩, st0) :=
        downloadFile_skip st0 spec hskip
      have hin1 : spec.destinationPath ∈ (fetchRun false st0 rest).2.dests :=
        fetchRun_dests_mono false rest st0 spec.destinationPath hskip
      have h2 : downloadFile false (fetchRun false st0 rest).2 spec
          = (⟨true, false⟩, (fetchRun false st0 rest).2) :=
        downloadFile_skip _ spec hin1
      have hrest := ih st0 hnodup'
      simp only [fetchRun, h1] at hrest ⊢
      simp only [fetchRun, h2]
      refine ⟨?_, ?_, hrest.2.2⟩
      · intro o ho
        rcases List.mem_cons.1 ho with rfl | ho'
        · rfl
        · exact hrest.1 o ho'
      · simp [hrest.2.1]
    · by_cases hsrc : spec.sourcePath ∈ st0.sources
      · -- first run copies the file, creating the destination object
        have h1 : downloadFile false st0 spec
            = (⟨true, true⟩, { st0 with dests := spec.destinationPath :: st0.dests }) := by
          unfold downloadFile
          rw [if_neg (fun hc => hskip hc.2), if_pos hsrc]
        set stA : StoreState := { st0 with dests := spec.destinationPath :: st0.dests } with hstA
        have hinA : spec.destinationPath ∈ stA.dests := List.mem_cons_self _ _
        have hin1 : spec.destinationPath ∈ (fetchRun false stA rest).2.dests :=
          fetchRun_dests_mono false rest stA spec.destinationPath hinA
        have h2 : downloadFile false (fetchRun false stA rest).2 spec
            = (⟨true, false⟩, (fetchRun false stA rest).2) :=
          downloadFile_skip _ spec hin1
        have hrest := ih stA hnodup'
        simp only [fetchRun, h1] at hrest ⊢
        simp only [fetchRun, h2]
        refine ⟨?_, ?_, hrest.2.2⟩
        · intro o ho
          rcases List.mem_cons.1 ho with rfl | ho'
          · rfl
          · exact hrest.1 o ho'
        · simp [hrest.2.1]
      · -- first run fails: missing source, and it is still missing on rerun
        have h1 : downloadFile false st0 spec = (⟨false, false⟩, st0) := by
          unfold downloadFile
          rw [if_neg (fun hc => hskip hc.2), if_neg hsrc]
        have hd1 : spec.destinationPath ∉ (fetchRun false st0 rest).2.dests := by
          intro hmem
          rcases fetchRun_dests_subset false rest st0 spec.destinationPath hmem with h | h
          · exact hskip h
          · exact hnotin h
        have hs1 : spec.sourcePath ∉ (fetchRun false st0 rest).2.sources := by
          rw [fetchRun_sources]
          exact hsrc
        have h2 : downloadFile false (fetchRun false st0 rest).2 spec
            = (⟨false, false⟩, (fetchRun false st0 rest).2) := by
          unfold downloadFile
          rw [if_neg (fun hc => hd1 hc.2), if_neg hs1]
        have hrest := ih st0 hnodup'
        simp only [fetchRun, h1] at hrest ⊢
        simp only [fetchRun, h2]
        refine ⟨?_, ?_, hrest.2.2⟩
        · intro o ho
          rcases List.mem_cons.1 ho with rfl | ho'
          · rfl
          · exact hrest.1 o ho'
        · simp [hrest.2.1]


/-- C5: with `overwrite=false`, a file whose destination already exists
is recorded as a success without a transfer, and rerunning `fetch` on
the same manifest (with pairwise-distinct destinations, as every
scheduled manifest has) performs zero transfers, reproduces the same
per-file success flags, and leaves the stores unchanged. -/
theorem c5_fetch_idempotent_no_retransfer (manifest : List FileSpec) (st0 : StoreState)
    (hnodup : (manifest.map FileSpec.destinationPath).Nodup) :
    (∀ (st : StoreState) (spec : FileSpec), spec.destinationPath ∈ st.dests →
        downloadFile false st spec = (⟨true, false⟩, st)) ∧
      (∀ o ∈ (fetchRun false (fetchRun false st0 manifest).2 manifest).1,
        o.transferred = false) ∧
      (fetchRun false (fetchRun false st0 manifest).2 manifest).1.map TransferOutcome.success
        = (fetchRun false st0 manifest).1.map TransferOutcome.success ∧
      (fetchRun false (fetchRun false st0 manifest).2 manifest).2
        = (fetchRun false st0 manifest).2 := by
  have h := fetchRun_idempotent manifest st0 hnodup
  exact ⟨fun st spec hd => downloadFile_skip st spec hd, h.1, h.2.1, h.2.2⟩

theorem c5_fetch_idempotent_no_retransfer_witness :
    (([⟨"s1", "d1"⟩, ⟨"s2", "d2"⟩] : List FileSpec).map FileSpec.destinationPath).Nodup ∧
      ((∀ (st : StoreState) (spec : FileSpec), spec.destinationPath ∈ st.dests →
          downloadFile false st spec = (⟨true, false⟩, st)) ∧
        (∀ o ∈ (fetchRun false
            (fetchRun false ⟨["s1"], ["d2"]⟩ [⟨"s1", "d1"⟩, ⟨"s2", "d2"⟩]).2
            [⟨"s1", "d1"⟩, ⟨"s2", "d2"⟩]).1, o.transferred = false) ∧
        (fetchRun false (fetchRun false ⟨["s1"], ["d2"]⟩ [⟨"s1", "d1"⟩, ⟨"s2", "d2"⟩]).2
            [⟨"s1", "d1"⟩, ⟨"s2", "d2"⟩]).1.map TransferOutcome.success
          = (fetchRun false ⟨["s1"], ["d2"]⟩
              [⟨"s1", "d1"⟩, ⟨"s2", "d2"⟩]).1.map TransferOutcome.success ∧
        (fetchRun false (fetchRun false ⟨["s1"], ["d2"]⟩ [⟨"s1", "d1"⟩, ⟨"s2", "d2"⟩]).2
            [⟨"s1", "d1"⟩, ⟨"s2", "d2"⟩]).2
          = (fetchRun false ⟨["s1"], ["d2"]⟩ [⟨"s1", "d1"⟩, ⟨"s2", "d2"⟩]).2) :=
  ⟨by decide,
    c5_fetch_idempotent_no_retransfer [⟨"s1", "d1"⟩, ⟨"s2", "d2"⟩] ⟨["s1"], ["d2"]⟩ (by decide)⟩

/-! ## Publish engine (`processor.py`) -/

/-- Observable actions of one upload worker: an upload attempt of a
file (with its attempt index and per-attempt timeout) and a backoff
sleep. -/
inductive UploadEvent
  | attempt (file : String) (idx : Nat) (timeout : Nat)
  | sleep (file : String) (duration : Nat)
deriving DecidableEq, Repr

/-- The retry loop of `upload_file_with_retry` (inside
`GribProcessor._upload_zarr_to_gcs`): `for attempt in range(max_retries)`
try the upload (each call bounded by `timeout`); on failure sleep
`2 ** attempt` and continue unless this was the final attempt, in which
case return the last error.  `env file i` is the outcome of attempt `i`
(`none` = success, `some e` = failure with message `e`).  `fuel` is the
number of loop iterations left (`maxRetries - attempt`); the fuel-0
return is Python's fall-through `return ..., "Max retries exceeded"`,
reachable only when `max_retries = 0`. -/
def uploadRetryGo (env : String → Nat → Option String) (file : String)
    (timeout maxRetries : Nat) : Nat → Nat → List UploadEvent × Bool × String
  | _, 0 => ([], false, "Max retries exceeded")
  | attempt, fuel + 1 =>
    match env file attempt with
    | none => ([UploadEvent.attempt file attempt timeout], true, "")
    | some e =>
      if attempt < maxRetries - 1 then
        let r := uploadRetryGo env file timeout maxRetries (attempt + 1) fuel
        (UploadEvent.attempt file attempt timeout :: UploadEvent.sleep file (2 ^ attempt) :: r.1,
          r.2)
      else ([UploadEvent.attempt file attempt timeout], false, e)

/-- `upload_file_with_retry`, started at attempt 0. -/
def uploadFileWithRetry (env : String → Nat → Option String) (file : String)
    (maxRetries timeout : Nat) : List UploadEvent × Bool × String :=
  uploadRetryGo env file timeout maxRetries 0 maxRetries

/-- Outcome of `GribProcessor._upload_zarr_to_gcs`: the emitted events,
the destination objects successfully created, and the aggregated
`(file, last error)` failures. -/
structure PublishResult where
  events : List UploadEvent
  uploaded : List String
  failed : List (String × String)
deriving DecidableEq, Repr

/-- `GribProcessor._upload_zarr_to_gcs`: gathers every file of the local
zarr archive (`local_zarr_path.rglob("*")` — the consolidated-metadata
control file `.zmetadata` included, with no separation), submits each to
`upload_file_with_retry` in one parallel batch, drains all futures, and
only afterwards raises an aggregated `RuntimeError` iff any file
exhausted its retries.  The model processes the files in list order —
one interleaving of the worker pool. -/
def uploadZarrToGcs (env : String → Nat → Option String) (maxRetries timeout : Nat) :
    List String → PublishResult
  | [] => ⟨[], [], []⟩
  | f :: rest =>
    let r := uploadFileWithRetry env f maxRetries timeout
    let tail := uploadZarrToGcs env maxRetries timeout rest
    ⟨r.1 ++ tail.events,
      (if r.2.1 then [f] else []) ++ tail.uploaded,
      (if r.2.1 then [] else [(f, r.2.2)]) ++ tail.failed⟩

/-- Whether `_upload_zarr_to_gcs` raises its aggregated `RuntimeError`. -/
def publishRaises (r : PublishResult) : Bool := !r.failed.isEmpty

/-- An upload environment in which the data chunk `chunk0` fails every
attempt and every other file uploads cleanly. -/
def envChunkFails : String → Nat → Option String :=
  fun f _ => if f = "chunk0" then some "connection reset" else none

/-- C1: the control file is uploaded in the same batch as the data
chunks, so when a chunk fails permanently the publish raises — but the
control file `.zmetadata` has nevertheless landed at the destination,
which therefore appears complete to readers. -/
theorem c1_control_file_lands_despite_chunk_failure :
    (uploadZarrToGcs envChunkFails 3 600 ["chunk0", ".zmetadata"]).failed
        = [("chunk0", "connection reset")] ∧
      ".zmetadata" ∈ (uploadZarrToGcs envChunkFails 3 600 ["chunk0", ".zmetadata"]).uploaded ∧
      publishRaises (uploadZarrToGcs envChunkFails 3 600 ["chunk0", ".zmetadata"]) = true := by
  refine ⟨by decide, by decide, by decide⟩

/-- Modelled from the spec: "on failure, retry up to `R` times" — the
initial attempt plus up to `R` retries, i.e. the upload succeeds iff one
of the first `R + 1` attempts succeeds. -/
def uploadRetrySpecSucceeds (env : String → Nat → Option String) (file : String)
    (maxRetries : Nat) : Bool :=
  (List.range (maxRetries + 1)).any (fun i => (env file i).isNone)

/-- An upload environment whose first attempt fails and whose retries
succeed. -/
def envFailOnce : String → Nat → Option String :=
  fun _ i => if i = 0 then some "network error" else none

/-- C6 counterexample: with `upload_max_retries = 1` the code makes a
single attempt and gives up — the chunk is never retried — although
"retried up to R (=1) times" would retry once and succeed. -/
theorem c6_retry_count_counterexample :
    (uploadFileWithRetry envFailOnce "chunk" 1 600).2.1 = false ∧
      (uploadFileWithRetry envFailOnce "chunk" 1 600).1 = [UploadEvent.attempt "chunk" 0 600] ∧
      uploadRetrySpecSucceeds envFailOnce "chunk" 1 = true := by
  refine ⟨by decide, by decide, by decide⟩


/-! ## Retry-loop characterization -/

theorem uploadRetryGo_head (env : String → Nat → Option String) (file : String)
    (timeout maxRetries : Nat) (attempt fuel : Nat) (hfuel : 1 ≤ fuel) :
    UploadEvent.attempt file attempt timeout
      ∈ (uploadRetryGo env file timeout maxRetries attempt fuel).1 := by
  match fuel, hfuel with
  | f + 1, _ =>
    unfold uploadRetryGo
    cases henv : env file attempt with
    | none =>
      dsimp only
      exact List.mem_singleton.2 rfl
    | some e =>
      dsimp only
      by_cases h : attempt < maxRetries - 1
      · rw [if_pos h]
        exact List.mem_cons_self _ _
      · rw [if_neg h]
        exact List.mem_singleton.2 rfl

theorem uploadRetryGo_attempt_events (env : String → Nat → Option String) (file : String)
    (timeout maxRetries : Nat) :
    ∀ (fuel attempt : Nat), attempt + fuel = maxRetries →
      ∀ g i t, UploadEvent.attempt g i t ∈ (uploadRetryGo env file timeout maxRetries attempt fuel).1 →
        g = file ∧ t = timeout ∧ attempt ≤ i ∧ i < maxRetries := by
  intro fuel
  induction fuel with
  | zero =>
    intro attempt _ g i t hmem
    simp [uploadRetryGo] at hmem
  | succ n ih =>
    intro attempt hR g i t hmem
    unfold uploadRetryGo at hmem
    cases henv : env file attempt with
    | none =>
      rw [henv] at hmem
      dsimp only at hmem
      rcases List.mem_singleton.1 hmem with h
      cases h
      exact ⟨rfl, rfl, Nat.le_refl _, by omega⟩
    | some e =>
      rw [henv] at hmem
      dsimp only at hmem
      by_cases h : attempt < maxRetries - 1
      · rw [if_pos h] at hmem
        rcases List.mem_cons.1 hmem with h1 | hmem'
        · cases h1
          exact ⟨rfl, rfl, Nat.le_refl _, by omega⟩
        · rcases List.mem_cons.1 hmem' with h2 | hmem''
          · cases h2
          · have := ih (attempt + 1) (by omega) g i t hmem''
            exact ⟨this.1, this.2.1, by omega, this.2.2.2⟩
      · rw [if_neg h] at hmem
        rcases List.mem_singleton.1 hmem with h1
        cases h1
        exact ⟨rfl, rfl, Nat.le_refl _, by omega⟩

theorem uploadRetryGo_sleep_events (env : String → Nat → Option String) (file : String)
    (timeout maxRetries : Nat) :
    ∀ (fuel attempt : Nat), attempt + fuel = maxRetries →
      ∀ g d, UploadEvent.sleep g d ∈ (uploadRetryGo env file timeout maxRetries attempt fuel).1 →
        g = file ∧ ∃ i, d = 2 ^ i ∧ attempt ≤ i ∧ i + 1 < maxRetries ∧ env file i ≠ none ∧
          UploadEvent.attempt file (i + 1) timeout
            ∈ (uploadRetryGo env file timeout maxRetries attempt fuel).1 := by
  intro fuel
  induction fuel with
  | zero =>
    intro attempt _ g d hmem
    simp [uploadRetryGo] at hmem
  | succ n ih =>
    intro attempt hR g d hmem
    rw [show uploadRetryGo env file timeout maxRetries attempt (n + 1)
        = (match env file attempt with
           | none => ([UploadEvent.attempt file attempt timeout], true, "")
           | some e =>
             if attempt < maxRetries - 1 then
               let r := uploadRetryGo env file timeout maxRetries (attempt + 1) n
               (UploadEvent.attempt file attempt timeout
                  :: UploadEvent.sleep file (2 ^ attempt) :: r.1, r.2)
             else ([UploadEvent.attempt file attempt timeout], false, e)) from rfl] at hmem ⊢
    cases henv : env file attempt with
    | none =>
      rw [henv] at hmem
      dsimp only at hmem
      rcases List.mem_singleton.1 hmem with h
      cases h
    | some e =>
      rw [henv] at hmem
      dsimp only at hmem ⊢
      by_cases h : attempt < maxRetries - 1
      · rw [if_pos h] at hmem ⊢
        rcases List.mem_cons.1 hmem with h1 | hmem'
        · cases h1
        · rcases List.mem_cons.1 hmem' with h2 | hmem''
          · cases h2
            refine ⟨rfl, attempt, rfl, Nat.le_refl _, by omega, by rw [henv]; simp, ?_⟩
            have hhead := uploadRetryGo_head env file timeout maxRetries (attempt + 1) n (by omega)
            exact List.mem_cons_of_mem _ (List.mem_cons_of_mem _ hhead)
          · have := ih (attempt + 1) (by omega) g d hmem''
            refine ⟨this.1, ?_⟩
            rcases this.2 with ⟨i, hd, hle, hlt, hne, hmem3⟩
            exact ⟨i, hd, by omega, hlt, hne,
              List.mem_cons_of_mem _ (List.mem_cons_of_mem _ hmem3)⟩
      · rw [if_neg h] at hmem
        rcases List.mem_singleton.1 hmem with h1
        cases h1


theorem uploadRetryGo_success_iff (env : String → Nat → Option String) (file : String)
    (timeout maxRetries : Nat) :
    ∀ (fuel attempt : Nat), attempt + fuel = maxRetries →
      ((uploadRetryGo env file timeout maxRetries attempt fuel).2.1 = true ↔
        ∃ i, attempt ≤ i ∧ i < maxRetries ∧ env file i = none ∧
          ∀ j, attempt ≤ j → j < i → env file j ≠ none) := by
  intro fuel
  induction fuel with
  | zero =>
    intro attempt hR
    simp only [uploadRetryGo]
    constructor
    · intro h
      cases h
    · rintro ⟨i, hi1, hi2, _, _⟩
      omega
  | succ n ih =>
    intro attempt hR
    unfold uploadRetryGo
    cases henv : env file attempt with
    | none =>
      dsimp only
      constructor
      · intro _
        exact ⟨attempt, Nat.le_refl _, by omega, henv, fun j hj hji => by omega⟩
      · intro _
        rfl
    | some e =>
      dsimp only
      by_cases h : attempt < maxRetries - 1
      · rw [if_pos h]
        rw [ih (attempt + 1) (by omega)]
        constructor
        · rintro ⟨i, hi1, hi2, hnone, hall⟩
          refine ⟨i, by omega, hi2, hnone, ?_⟩
          intro j hj hji
          by_cases hja : j = attempt
          · subst hja
            rw [henv]
            simp
          · exact hall j (by omega) hji
        · rintro ⟨i, hi1, hi2, hnone, hall⟩
          have hia : i ≠ attempt := by
            intro hia
            subst hia
            rw [henv] at hnone
            cases hnone
          refine ⟨i, by omega, hi2, hnone, ?_⟩
          intro j hj hji
          exact hall j (by omega) hji
      · rw [if_neg h]
        constructor
        · intro hfalse
          cases hfalse
        · rintro ⟨i, hi1, hi2, hnone, _⟩
          have : i = attempt := by omega
          subst this
          rw [henv] at hnone
          cases hnone

theorem uploadRetryGo_last_error (env : String → Nat → Option String) (file : String)
    (timeout maxRetries : Nat) :
    ∀ (fuel attempt : Nat), attempt + fuel = maxRetries → 1 ≤ fuel →
      (uploadRetryGo env file timeout maxRetries attempt fuel).2.1 = false →
      ∃ e, env file (maxRetries - 1) = some e ∧
        (uploadRetryGo env file timeout maxRetries attempt fuel).2.2 = e := by
  intro fuel
  induction fuel with
  | zero =>
    intro attempt _ hfuel
    omega
  | succ n ih =>
    intro attempt hR _ hfail
    unfold uploadRetryGo at hfail ⊢
    cases henv : env file attempt with
    | none =>
      rw [henv] at hfail
      dsimp only at hfail
      cases hfail
    | some e =>
      rw [henv] at hfail
      dsimp only at hfail ⊢
      by_cases h : attempt < maxRetries - 1
      · rw [if_pos h] at hfail ⊢
        exact ih (attempt + 1) (by omega) (by omega) hfail
      · rw [if_neg h]
        have ha : attempt = maxRetries - 1 := by omega
        exact ⟨e, by rw [← ha]; exact henv, rfl⟩

theorem uploadZarrToGcs_failed_eq (env : String → Nat → Option String) (maxRetries timeout : Nat) :
    ∀ files : List String,
      (uploadZarrToGcs env maxRetries timeout files).failed
        = (files.filter (fun g => !(uploadFileWithRetry env g maxRetries timeout).2.1)).map
            (fun g => (g, (uploadFileWithRetry env g maxRetries timeout).2.2)) := by
  intro files
  induction files with
  | nil => rfl
  | cons f rest ih =>
    by_cases hr : (uploadFileWithRetry env f maxRetries timeout).2.1 = true
    · simp [uploadZarrToGcs, List.filter_cons, hr, ih]
    · have hr' : (uploadFileWithRetry env f maxRetries timeout).2.1 = false := by
        cases hb : (uploadFileWithRetry env f maxRetries timeout).2.1
        · rfl
        · exact absurd hb hr
      simp [uploadZarrToGcs, List.filter_cons, hr', ih]

theorem uploadZarrToGcs_drained (env : String → Nat → Option String) (maxRetries timeout : Nat) :
    ∀ files : List String, ∀ g ∈ files,
      g ∈ (uploadZarrToGcs env maxRetries timeout files).uploaded ∨
        ∃ e, (g, e) ∈ (uploadZarrToGcs env maxRetries timeout files).failed := by
  intro files
  induction files with
  | nil =>
    intro g hg
    cases hg
  | cons f rest ih =>
    intro g hg
    rcases List.mem_cons.1 hg with rfl | hg'
    · by_cases hr : (uploadFileWithRetry env g maxRetries timeout).2.1 = true
      · left
        simp [uploadZarrToGcs, hr]
      · right
        refine ⟨(uploadFileWithRetry env g maxRetries timeout).2.2, ?_⟩
        have hr' : (uploadFileWithRetry env g maxRetries timeout).2.1 = false := by
          cases hb : (uploadFileWithRetry env g maxRetries timeout).2.1
          · rfl
          · exact absurd hb hr
        simp [uploadZarrToGcs, hr']
    · rcases ih g hg' with h | ⟨e, he⟩
      · left
        simp only [uploadZarrToGcs]
        exact List.mem_append.2 (Or.inr h)
      · right
        refine ⟨e, ?_⟩
        simp only [uploadZarrToGcs]
        exact List.mem_append.2 (Or.inr he)

theorem publishRaises_iff (env : String → Nat → Option String) (maxRetries timeout : Nat)
    (files : List String) :
    publishRaises (uploadZarrToGcs env maxRetries timeout files) = true ↔
      ∃ g ∈ files, (uploadFileWithRetry env g maxRetries timeout).2.1 = false := by
  rw [publishRaises, Bool.not_eq_true']
  rw [show ((uploadZarrToGcs env maxRetries timeout files).failed.isEmpty = false)
      = ¬ ((uploadZarrToGcs env maxRetries timeout files).failed.isEmpty = true) from by
    simp]
  rw [List.isEmpty_iff, uploadZarrToGcs_failed_eq]
  constructor
  · intro hne
    have : (files.filter (fun g => !(uploadFileWithRetry env g maxRetries timeout).2.1)) ≠ [] := by
      intro hnil
      exact hne (by rw [hnil]; rfl)
    rcases List.exists_mem_of_ne_nil _ this with ⟨g, hg⟩
    rcases List.mem_filter.1 hg with ⟨hgf, hfail⟩
    refine ⟨g, hgf, ?_⟩
    rcases hb : (uploadFileWithRetry env g maxRetries timeout).2.1 with _ | _
    · rfl
    · rw [hb] at hfail
      cases hfail
  · rintro ⟨g, hgf, hfail⟩ hmap
    have : g ∈ files.filter (fun g => !(uploadFileWithRetry env g maxRetries timeout).2.1) :=
      List.mem_filter.2 ⟨hgf, by rw [hfail]; rfl⟩
    have : ((files.filter (fun g => !(uploadFileWithRetry env g maxRetries timeout).2.1)).map
        (fun g => (g, (uploadFileWithRetry env g maxRetries timeout).2.2))) ≠ [] := by
      intro hnil
      rw [List.map_eq_nil] at hnil
      rw [hnil] at this
      cases this
    exact this hmap


/-- C6 (amended): during publish each failing chunk upload is attempted
up to `R = upload_max_retries` times in total — the initial attempt plus
up to `R - 1` retries — every attempt bounded by timeout `T`, with a
`2 ^ i` backoff after the `i`-th failed attempt before the next one;
the upload succeeds iff one of the first `R` attempts succeeds, a chunk
exhausting its attempts reports its last error, and the publish raises
the aggregated `(chunk, last error)` list exactly when some file failed,
only after every file has been processed. -/
theorem c6_retry_backoff_and_aggregation (env : String → Nat → Option String)
    (R T : Nat) (f : String) (files : List String) :
    (∀ g i t, UploadEvent.attempt g i t ∈ (uploadFileWithRetry env f R T).1 →
        g = f ∧ t = T ∧ i < R) ∧
      (∀ g d, UploadEvent.sleep g d ∈ (uploadFileWithRetry env f R T).1 →
        g = f ∧ ∃ i, d = 2 ^ i ∧ i + 1 < R ∧ env f i ≠ none ∧
          UploadEvent.attempt f (i + 1) T ∈ (uploadFileWithRetry env f R T).1) ∧
      ((uploadFileWithRetry env f R T).2.1 = true ↔
        ∃ i, i < R ∧ env f i = none ∧ ∀ j, j < i → env f j ≠ none) ∧
      ((uploadFileWithRetry env f R T).2.1 = false → 1 ≤ R →
        ∃ e, env f (R - 1) = some e ∧ (uploadFileWithRetry env f R T).2.2 = e) ∧
      ((uploadZarrToGcs env R T files).failed
        = (files.filter (fun g => !(uploadFileWithRetry env g R T).2.1)).map
            (fun g => (g, (uploadFileWithRetry env g R T).2.2))) ∧
      (∀ g ∈ files, g ∈ (uploadZarrToGcs env R T files).uploaded ∨
        ∃ e, (g, e) ∈ (uploadZarrToGcs env R T files).failed) ∧
      (publishRaises (uploadZarrToGcs env R T files) = true ↔
        ∃ g ∈ files, (uploadFileWithRetry env g R T).2.1 = false) := by
  refine ⟨?_, ?_, ?_, ?_, uploadZarrToGcs_failed_eq env R T files,
    uploadZarrToGcs_drained env R T files, publishRaises_iff env R T files⟩
  · intro g i t hmem
    have h := uploadRetryGo_attempt_events env f T R R 0 (by omega) g i t hmem
    exact ⟨h.1, h.2.1, h.2.2.2⟩
  · intro g d hmem
    have h := uploadRetryGo_sleep_events env f T R R 0 (by omega) g d hmem
    rcases h with ⟨hg, i, hd, _, hlt, hne, hmem2⟩
    exact ⟨hg, i, hd, hlt, hne, hmem2⟩
  · rw [uploadFileWithRetry, uploadRetryGo_success_iff env f T R R 0 (by omega)]
    constructor
    · rintro ⟨i, _, hi2, hnone, hall⟩
      exact ⟨i, hi2, hnone, fun j hji => hall j (Nat.zero_le _) hji⟩
    · rintro ⟨i, hi2, hnone, hall⟩
      exact ⟨i, Nat.zero_le _, hi2, hnone, fun j _ hji => hall j hji⟩
  · intro hfail hR
    exact uploadRetryGo_last_error env f T R R 0 (by omega) (by omega) hfail

theorem c6_retry_backoff_and_aggregation_witness :
    "chunk" = "chunk" ∧ ∃ i, (1 : Nat) = 2 ^ i ∧ i + 1 < 2 ∧ envFailOnce "chunk" i ≠ none ∧
      UploadEvent.attempt "chunk" (i + 1) 600 ∈ (uploadFileWithRetry envFailOnce "chunk" 2 600).1 :=
  (c6_retry_backoff_and_aggregation envFailOnce 2 600 "chunk" ["chunk"]).2.1 "chunk" 1 (by decide)


/-! ## Overwrite deletion in `_write_local_then_upload` (`processor.py`) -/

/-- The destination-store actions `GribProcessor._write_local_then_upload`
performs, in program order. -/
inductive PubStep
  | deleteArchive
  | upload (file : String)
deriving DecidableEq, Repr

/-- `GribProcessor._write_local_then_upload`:
* mode `"w-"` (`overwrite = false`): raise `FileExistsError` when the
  destination archive exists, before anything is uploaded;
* mode `"w"` (`overwrite = true`): write the local temp archive, then —
  if the destination exists — delete the whole existing archive with
  `fs.rm(..., recursive=True)`, and only then upload the new files. -/
def writeLocalThenUploadSteps (overwrite destExists : Bool) (files : List String) :
    Except String (List PubStep) :=
  if overwrite = false ∧ destExists then
    Except.error "Zarr archive already exists"
  else
    Except.ok ((if overwrite ∧ destExists then [PubStep.deleteArchive] else [])
      ++ files.map PubStep.upload)

/-- The destination store after running a list of publish steps:
`deleteArchive` removes every object under the archive prefix, an
upload adds its object. -/
def runPubSteps : List String → List PubStep → List String
  | store, [] => store
  | _, PubStep.deleteArchive :: rest => runPubSteps [] rest
  | store, PubStep.upload f :: rest => runPubSteps (f :: store) rest

/-- C8: republishing in overwrite mode onto an existing archive deletes
the entire archive — its control file `.zmetadata` included — strictly
before any file of the new archive is uploaded (the step list starts
with the deletion), so after the deletion prefix of the trace a reader
probing the control file sees no archive at all. -/
theorem c8_overwrite_deletes_whole_archive_first (files : List String)
    (oldStore : List String) :
    writeLocalThenUploadSteps true true files
        = Except.ok (PubStep.deleteArchive :: files.map PubStep.upload) ∧
      runPubSteps oldStore [PubStep.deleteArchive] = [] ∧
      ".zmetadata" ∉ runPubSteps oldStore [PubStep.deleteArchive] := by
  refine ⟨?_, rfl, ?_⟩
  · rw [writeLocalThenUploadSteps, if_neg (by simp), if_pos ⟨rfl, rfl⟩]
    rfl
  · intro h
    cases h

end Nwpio
